import Mathlib

/-!
Shallow embedding of the core of `check_bib_V2.py`: the bibliography
normalizer, field matcher, author-equivalence model, entry matcher,
reconciliation engine (`compare_files`) and merge engine
(`add_entry_yaml_to_yaml_referece` / `add_entry_dic_to_yaml_referece_2`),
together with theorems settling the specification claims.

Modelling conventions:
* Python dicts become association lists (`AList`) with insert-overwrite
  semantics (`insertA`), preserving Python's key-uniqueness and insertion
  order; Python dict equality (order-insensitive) becomes `dictEq`.
* A record field value is either a string or a list of author `Person`
  structures (`Value`).
* Python code that can raise (`KeyError`, `TypeError`, `IndexError`) is
  embedded in `Except String`; printed warnings are modelled as returned
  warning lists.
* `normalize` models `re.sub(r'\W+', '', s).lower()` on an explicit
  fragment of Unicode: all of ASCII — where `\w` is [A-Za-z0-9_] and
  `str.lower` maps A-Z to a-z — plus U+0130 and U+0307, which exhibit the
  Unicode-aware behaviour the normalizer claims turn on: U+0130 is a word
  character whose lowercase is the two-character sequence i, U+0307, and
  U+0307 is a combining mark that `\w` rejects. Code points outside the
  fragment default to non-word and lowercase-to-self; the claims whose
  truth depends on the character classification state their theorems on
  the fragment.
-/

namespace CheckBib

/-- Association list keyed by strings: the embedding of a Python dict. -/
abbrev AList (β : Type) := List (String × β)

/-- Dict lookup: first binding of the key, if any. -/
def lookupA {β : Type} : AList β → String → Option β
  | [], _ => none
  | (k, v) :: rest, key => if k = key then some v else lookupA rest key

/-- Dict assignment `d[key] = val`: replaces the value in place when the key
exists (keeping its position, as a Python dict does) and appends otherwise. -/
def insertA {β : Type} : AList β → String → β → AList β
  | [], key, val => [(key, val)]
  | (k, v) :: rest, key, val =>
      if k = key then (k, val) :: rest else (k, v) :: insertA rest key val

/-- Membership test `key in d`. -/
def containsKey {β : Type} (d : AList β) (k : String) : Bool :=
  (lookupA d k).isSome

/-- A structured author name: `last` is required (the source accesses
`author['last']` unconditionally), `first` and `middle` are optional. -/
structure Person where
  last : String
  first : Option String
  middle : Option String
deriving DecidableEq, Repr

/-- A record field value: a plain string, or (for `author`) an ordered list
of `Person` structures. -/
inductive Value where
  | str : String → Value
  | authors : List Person → Value
deriving DecidableEq, Repr

/-- A bibliographic record: mapping from field name to value. -/
abbrev Record := AList Value

/-- A collection: mapping from record key to record. -/
abbrev Collection := AList Record

/-- Field access `field in record` / `record.get(field)`. -/
def getField (r : Record) (f : String) : Option Value :=
  lookupA r f

/-- Membership test `field in record`. -/
def hasField (r : Record) (f : String) : Bool :=
  (getField r f).isSome

/-- ASCII code-point test. -/
def isAscii (c : Char) : Bool :=
  decide (c.toNat < 128)

/-- U+0130, LATIN CAPITAL LETTER I WITH DOT ABOVE: the one code point with
an unconditional multi-character Unicode lowercase mapping. -/
def capitalIWithDot : Char := 'İ'

/-- U+0307, COMBINING DOT ABOVE: the nonspacing mark produced by
lowercasing U+0130; not a word character for Python's `\w`. -/
def combiningDotAbove : Char := Char.ofNat 0x307

/-- Code points on which this embedding models Python's Unicode string
primitives faithfully: all of ASCII plus U+0130 and U+0307. Outside this
fragment the primitives below default to "not a word character" and
"lowercases to itself"; the theorems whose truth depends on the character
classification (the C6 and C9 normalizer claims) state themselves on the
fragment. -/
def modeledChar (c : Char) : Bool :=
  isAscii c || c = capitalIWithDot || c = combiningDotAbove

/-- Python word-character test `\w` on the modelled fragment: on ASCII it
is [A-Za-z0-9_]; U+0130 is a letter, hence a word character; U+0307 is a
combining mark, not a word character. -/
def pyIsWordChar (c : Char) : Bool :=
  c.isAlphanum || c = '_' || c = capitalIWithDot

/-- Python `str.lower` of one character on the modelled fragment: A-Z map
to a-z, U+0130 maps to the two-character sequence i, U+0307 (Unicode's
unconditional SpecialCasing rule, which CPython's `str.lower` applies),
every other modelled code point maps to itself. -/
def pyToLower (c : Char) : List Char :=
  if c = capitalIWithDot then ['i', combiningDotAbove] else [Char.toLower c]

/-- Character-list core of `normalize`: drop the non-word characters
(`re.sub(r'\W+', '', s)`), then lowercase the remainder (`.lower()`). -/
def normalizeList (cs : List Char) : List Char :=
  (cs.filter pyIsWordChar).flatMap pyToLower

/-- Embedding of `normalize` (src line 438): `re.sub(r'\W+', '', s).lower()`. -/
def normalize (s : String) : String :=
  String.mk (normalizeList s.data)

/-- An author fingerprint: mapping from last name to the list of acceptable
initial tokens (`author_name_equivalence`'s `list_equivalence` dict). -/
abbrev Fingerprint := AList (List String)

/-- Python `name[0]` and `name[0] + '.'` on a string: `IndexError` when the
string is empty, otherwise the two initial forms. -/
def initialForms (name : String) : Except String (List String) :=
  match name.data with
  | [] => .error "IndexError"
  | c :: _ => .ok [String.mk [c], String.mk [c, '.']]

/-- Per-author step of `author_name_equivalence` (src lines 473-483): if
`first` is present register its initial forms under `last`, then, if
`middle` is present, overwrite that registration with the middle-name
forms; with neither, the author is skipped (a printed data-quality note). -/
def authorStep (d : Fingerprint) (a : Person) : Except String Fingerprint := do
  let d1 ← match a.first with
    | some f => do
        let fs ← initialForms f
        pure (insertA d a.last fs)
    | none => pure d
  match a.middle with
  | some m => do
      let ms ← initialForms m
      pure (insertA d1 a.last ms)
  | none => pure d1

/-- Embedding of `author_name_equivalence` (src line 461): builds the
last-name to initial-forms dict from `entry['author']`. Accessing a missing
`author` field raises `KeyError`; iterating a non-list value raises
`TypeError`. -/
def author_name_equivalence (entry : Record) : Except String Fingerprint :=
  match getField entry "author" with
  | some (.authors ps) => ps.foldlM authorStep []
  | some (.str _) => .error "TypeError"
  | none => .error "KeyError"

/-- Python dict equality for fingerprints: same keys, each mapped to an
equal list, insertion order irrelevant. -/
def dictEq (d1 d2 : Fingerprint) : Bool :=
  d1.all (fun p => lookupA d2 p.1 == some p.2) &&
    d2.all (fun p => lookupA d1 p.1 == some p.2)

/-- Python `normalize(entry.get(field))`: `re.sub` raises `TypeError` when
its input is `None` (absent field) or not a string. -/
def normalizeArg (v : Option Value) : Except String String :=
  match v with
  | some (.str s) => .ok (normalize s)
  | some (.authors _) => .error "TypeError"
  | none => .error "TypeError"

/-- Embedding of `entries_match` (src line 488): for `author`, equality of
the two author fingerprints (Python dict equality); for any other field,
equality of the normalized field values. -/
def entries_match (e1 e2 : Record) (field : String) : Except String Bool :=
  if field = "author" then do
    let a1 ← author_name_equivalence e1
    let a2 ← author_name_equivalence e2
    pure (dictEq a1 a2)
  else do
    let v1 ← normalizeArg (getField e1 field)
    let v2 ← normalizeArg (getField e2 field)
    pure (v1 == v2)

/-- Embedding of `do_they_have` (src line 505): 3 when both records have the
field and the values match, 1 when both have it and they do not, 0 when the
presence test fails (at least one record lacks the field). -/
def do_they_have (r1 r2 : Record) (f : String) : Except String Nat :=
  if hasField r1 f && hasField r2 f then do
    let m ← entries_match r1 r2 f
    pure (if m then 3 else 1)
  else
    pure 0

/-- Embedding of `field_values_match_multiple` (src line 525): 0 both
absent, 1 first absent, 2 second absent, 3 both present and raw-equal,
4 both present and different. -/
def field_values_match_multiple (e1 e2 : Record) (f : String) : Nat :=
  if ¬ hasField e1 f ∧ ¬ hasField e2 f then 0
  else if ¬ hasField e1 f then 1
  else if ¬ hasField e2 f then 2
  else if getField e1 f = getField e2 f then 3
  else 4

/-! Total variants of the matchers. The source functions can raise; on
well-formed records (`wfRecord` below) they are total, and the `…T`
functions compute the value they then return. The refinement lemmas
stating this equivalence follow with the theorems. -/

/-- Total variant of `initialForms`: empty list for an empty name. -/
def initialFormsT (name : String) : List String :=
  match name.data with
  | [] => []
  | c :: _ => [String.mk [c], String.mk [c, '.']]

/-- Total variant of `authorStep`. -/
def authorStepT (d : Fingerprint) (a : Person) : Fingerprint :=
  let d1 := match a.first with
    | some f => insertA d a.last (initialFormsT f)
    | none => d
  match a.middle with
  | some m => insertA d1 a.last (initialFormsT m)
  | none => d1

/-- Total variant of `author_name_equivalence`: empty fingerprint when the
`author` field is missing or malformed. -/
def author_name_equivalenceT (entry : Record) : Fingerprint :=
  match getField entry "author" with
  | some (.authors ps) => ps.foldl authorStepT []
  | _ => []

/-- Total variant of `normalizeArg`: empty string on the error cases. -/
def normalizeArgT (v : Option Value) : String :=
  match v with
  | some (.str s) => normalize s
  | _ => ""

/-- Total variant of `entries_match`. -/
def entries_matchT (e1 e2 : Record) (field : String) : Bool :=
  if field = "author" then
    dictEq (author_name_equivalenceT e1) (author_name_equivalenceT e2)
  else
    normalizeArgT (getField e1 field) == normalizeArgT (getField e2 field)

/-- Total variant of `do_they_have`. -/
def do_they_haveT (r1 r2 : Record) (f : String) : Nat :=
  if hasField r1 f && hasField r2 f then
    if entries_matchT r1 r2 f then 3 else 1
  else 0

/-- Well-formed person: `first` and `middle` names, when present, are
nonempty, so taking `name[0]` cannot raise `IndexError`. -/
def wfPerson (a : Person) : Bool :=
  (match a.first with
   | some f => f != ""
   | none => true) &&
  (match a.middle with
   | some m => m != ""
   | none => true)

/-- Well-formed field value: the `author` field holds a list of well-formed
persons, every other field holds a string. -/
def wfValue (f : String) (v : Value) : Bool :=
  if f = "author" then
    match v with
    | .authors ps => ps.all wfPerson
    | .str _ => false
  else
    match v with
    | .str _ => true
    | .authors _ => false

/-- Well-formed record: every present field value is well-formed for its
field name. -/
def wfRecord (r : Record) : Bool :=
  r.all fun p => wfValue p.1 p.2

/-- Well-formed collection: every record is well-formed. -/
def wfCollection (c : Collection) : Bool :=
  c.all fun p => wfRecord p.2

/-! Reconciliation engine: `compare_files` (src lines 550-588), with file
I/O stripped: it consumes the two collections already loaded from the
files and returns the report state the source would write out. -/

/-- The six extra columns compared for each reported match row. -/
def fieldColumns : List String :=
  ["type", "journal", "volume", "number", "pages", "year"]

/-- Cell encoding of a `field_values_match_multiple` result in a report
row (src line 581). -/
def encodeField (result : Nat) : String :=
  if result == 3 then "Yes"
  else if result == 2 then "M-2"
  else if result == 1 then "M-1"
  else if result == 0 then "M-Both"
  else "No"

/-- One report row (src line 581): the two keys, Yes/No for title and
author, then the encoded verdicts of the six extra columns. -/
def matchRow (k1 : String) (e1 : Record) (k2 : String) (e2 : Record)
    (t a : Nat) : List String :=
  [k1, k2, if t == 3 then "Yes" else "No", if a == 3 then "Yes" else "No"] ++
    fieldColumns.map fun fn => encodeField (field_values_match_multiple e1 e2 fn)

/-- Report state accumulated by `compare_files`: the match rows, the
`no_matches` dict and the `match_counter` dict. -/
structure ScanState where
  rows : List (List String)
  no_matches : Collection
  match_counter : AList Nat
deriving DecidableEq, Repr

/-- Body of the inner loop of `compare_files` (src lines 570-581) for one
right-collection entry: the accumulator is `(matches so far, found_ref,
found_times)`. -/
def processPair (k1 : String) (e1 : Record) (k2 : String) (e2 : Record)
    (acc : List (List String) × Bool × Nat) :
    Except String (List (List String) × Bool × Nat) := do
  let t ← do_they_have e1 e2 "title"
  let a ← do_they_have e1 e2 "author"
  if t + a > 2 then
    pure (acc.1 ++ [matchRow k1 e1 k2 e2 t a], true,
      if t + a == 6 then acc.2.2 + 1 else acc.2.2)
  else
    pure acc

/-- Inner loop of `compare_files` over all right-collection entries for a
fixed left entry, starting from `found_ref = False`, `found_times = 0`. -/
def scanRightE (k1 : String) (e1 : Record) (right : Collection) :
    Except String (List (List String) × Bool × Nat) :=
  right.foldlM (fun acc p => processPair k1 e1 p.1 p.2 acc) ([], false, 0)

/-- One iteration of the outer loop of `compare_files` (src lines 566-588):
scan the right collection, then record the left key in `match_counter`
when `found_ref` and `found_times > 1`, and in `no_matches` when no
candidate match was found. -/
def leftStep (right : Collection) (st : ScanState) (p : String × Record) :
    Except String ScanState := do
  let (rows, fr, ft) ← scanRightE p.1 p.2 right
  pure { rows := st.rows ++ rows,
         no_matches := if fr then st.no_matches else insertA st.no_matches p.1 p.2,
         match_counter :=
           if fr then
             if ft > 1 then insertA st.match_counter p.1 ft else st.match_counter
           else st.match_counter }

/-- Embedding of the comparison core of `compare_files` (src line 550). -/
def compare_files (left right : Collection) : Except String ScanState :=
  left.foldlM (leftStep right) ⟨[], [], []⟩

/-- Total variant of `processPair`. -/
def processPairT (k1 : String) (e1 : Record) (k2 : String) (e2 : Record)
    (acc : List (List String) × Bool × Nat) :
    List (List String) × Bool × Nat :=
  if do_they_haveT e1 e2 "title" + do_they_haveT e1 e2 "author" > 2 then
    (acc.1 ++
      [matchRow k1 e1 k2 e2 (do_they_haveT e1 e2 "title") (do_they_haveT e1 e2 "author")],
      true,
      if do_they_haveT e1 e2 "title" + do_they_haveT e1 e2 "author" == 6 then
        acc.2.2 + 1
      else acc.2.2)
  else
    acc

/-- Total variant of `scanRightE`. -/
def scanRight (k1 : String) (e1 : Record) (right : Collection) :
    List (List String) × Bool × Nat :=
  right.foldl (fun acc p => processPairT k1 e1 p.1 p.2 acc) ([], false, 0)

/-- Total variant of `leftStep`. -/
def leftStepT (right : Collection) (st : ScanState) (p : String × Record) :
    ScanState :=
  { rows := st.rows ++ (scanRight p.1 p.2 right).1,
    no_matches :=
      if (scanRight p.1 p.2 right).2.1 then st.no_matches
      else insertA st.no_matches p.1 p.2,
    match_counter :=
      if (scanRight p.1 p.2 right).2.1 then
        if (scanRight p.1 p.2 right).2.2 > 1 then
          insertA st.match_counter p.1 (scanRight p.1 p.2 right).2.2
        else st.match_counter
      else st.match_counter }

/-- Total variant of `compare_files`. -/
def compareFilesT (left right : Collection) : ScanState :=
  left.foldl (leftStepT right) ⟨[], [], []⟩

/-- Combined title and author score of a record pair. -/
def pairScore (e1 e2 : Record) : Nat :=
  do_they_haveT e1 e2 "title" + do_they_haveT e1 e2 "author"

/-- Candidate match: combined score exceeds 2. -/
def isCandidate (e1 e2 : Record) : Bool :=
  decide (pairScore e1 e2 > 2)

/-- Strong match: combined score is exactly 6. -/
def isStrong (e1 e2 : Record) : Bool :=
  pairScore e1 e2 == 6

/-- Number of right-collection entries that strong-match a left record. -/
def countStrong (e1 : Record) (right : Collection) : Nat :=
  (right.filter fun p => isStrong e1 p.2).length

/-- Whether some right-collection entry forms a candidate match with a
left record. -/
def anyCandidate (e1 : Record) (right : Collection) : Bool :=
  right.any fun p => isCandidate e1 p.2

/-! Merge engine: `dict_invertion_w_no_key_warning` (src line 402) and the
core of `add_entry_yaml_to_yaml_referece` (src lines 1046-1064) /
`add_entry_dic_to_yaml_referece_2` (src lines 996-1014), with file I/O
stripped: the two collections are taken as already unwrapped by
`pull_entry`, and the mutated primary collection is returned instead of
being dumped back to the file. -/

/-- Embedding of `dict_invertion_w_no_key_warning` (src line 402) for
`key_wanted = 'title'`, `normalization = True`: returns the inverted index
mapping `normalize(title)` to the record key, together with the list of
keys whose record lacks a title (each the subject of a printed warning in
the source). `normalize` on a non-string title raises `TypeError`.
`invStep` is the body of its loop for one `(key, record)` pair. -/
def invStep (acc : AList String × List String) (p : String × Record) :
    Except String (AList String × List String) :=
  match getField p.2 "title" with
  | some v => do
      let fp ← normalizeArg (some v)
      pure (insertA acc.1 fp p.1, acc.2)
  | none => pure (acc.1, acc.2 ++ [p.1])

/-- Fold of `invStep` over the collection (src lines 410-420). -/
def dict_invertion_w_no_key_warning (data : Collection) :
    Except String (AList String × List String) :=
  data.foldlM invStep ([], [])

/-- Embedding of the merge core shared by `add_entry_yaml_to_yaml_referece`
and `add_entry_dic_to_yaml_referece_2`: invert both collections by
normalized title, take the title fingerprints of `incoming` that are
absent from `primary`'s index (the Python set difference, modelled in
index order — the final mapping does not depend on the order), and copy
each corresponding incoming record into `primary` under its original
incoming key (`data_inver_Data_pulled[key_add] = entry_data[key_add]`,
src line 1057 — a plain dict assignment, overwriting any existing record
under that key). `mergeStep` is that assignment for one incoming key;
`Python` raises `KeyError` when the key is missing from `incoming`. -/
def mergeStep (incoming : Collection) (acc : Collection) (k : String) :
    Except String Collection :=
  match lookupA incoming k with
  | some r => pure (insertA acc k r)
  | none => .error "KeyError"

/-- Merge core: invert both collections, compute the set difference of
title fingerprints, and fold `mergeStep` over the keys to add. -/
def mergeCore (primary incoming : Collection) : Except String Collection := do
  let pInv ← dict_invertion_w_no_key_warning primary
  let iInv ← dict_invertion_w_no_key_warning incoming
  let pFps := pInv.1.map Prod.fst
  let addFps := (iInv.1.map Prod.fst).filter fun fp => !pFps.contains fp
  let keysToAdd := addFps.filterMap fun fp => lookupA iInv.1 fp
  keysToAdd.foldlM (mergeStep incoming) primary

/-! Association-list (Python dict) lemmas. -/

theorem lookupA_insertA_self {β : Type} (d : AList β) (k : String) (v : β) :
    lookupA (insertA d k v) k = some v := by
  induction d with
  | nil => simp [insertA, lookupA]
  | cons p rest ih =>
    obtain ⟨k0, v0⟩ := p
    by_cases h : k0 = k
    · simp [insertA, h, lookupA]
    · simp [insertA, h, lookupA, ih]

theorem lookupA_insertA_ne {β : Type} (d : AList β) (k k' : String) (v : β)
    (h : k' ≠ k) : lookupA (insertA d k v) k' = lookupA d k' := by
  have hne : k ≠ k' := fun hh => h hh.symm
  induction d with
  | nil => simp [insertA, lookupA, hne]
  | cons p rest ih =>
    obtain ⟨k0, v0⟩ := p
    by_cases h0 : k0 = k
    · subst h0
      simp [insertA, lookupA, hne]
    · by_cases h1 : k0 = k'
      · simp [insertA, h0, lookupA, h1, h]
      · simp [insertA, h0, lookupA, h1, ih]

theorem mem_insertA {β : Type} {d : AList β} {k k' : String} {v v' : β}
    (h : (k', v') ∈ insertA d k v) : (k', v') ∈ d ∨ (k' = k ∧ v' = v) := by
  induction d with
  | nil =>
    simp [insertA] at h
    exact Or.inr h
  | cons p rest ih =>
    obtain ⟨k0, v0⟩ := p
    by_cases h0 : k0 = k
    · subst h0
      simp [insertA] at h
      rcases h with ⟨h1, h2⟩ | h
      · exact Or.inr ⟨h1, h2⟩
      · exact Or.inl (List.mem_cons_of_mem _ h)
    · simp [insertA, h0] at h
      rcases h with ⟨h1, h2⟩ | h
      · exact Or.inl (by simp [h1, h2])
      · rcases ih h with h | h
        · exact Or.inl (List.mem_cons_of_mem _ h)
        · exact Or.inr h

theorem lookupA_some_mem {β : Type} {d : AList β} {k : String} {v : β}
    (h : lookupA d k = some v) : (k, v) ∈ d := by
  induction d with
  | nil => simp [lookupA] at h
  | cons p rest ih =>
    obtain ⟨k0, v0⟩ := p
    by_cases h0 : k0 = k
    · subst h0
      simp [lookupA] at h
      simp [h]
    · simp [lookupA, h0] at h
      exact List.mem_cons_of_mem _ (ih h)

theorem mem_containsKey {β : Type} {d : AList β} {k : String} {v : β}
    (h : (k, v) ∈ d) : containsKey d k = true := by
  induction d with
  | nil => simp at h
  | cons p rest ih =>
    obtain ⟨k0, v0⟩ := p
    rcases List.mem_cons.mp h with h1 | h1
    · obtain ⟨h1, _⟩ := Prod.mk.injEq .. ▸ h1
      simp [containsKey, lookupA, h1.symm]
    · by_cases h0 : k0 = k
      · simp [containsKey, lookupA, h0]
      · simpa [containsKey, lookupA, h0] using ih h1

theorem containsKey_exists {β : Type} {d : AList β} {k : String}
    (h : containsKey d k = true) : ∃ v, lookupA d k = some v := by
  unfold containsKey at h
  exact Option.isSome_iff_exists.mp h

theorem containsKey_false_lookupA {β : Type} {d : AList β} {k : String}
    (h : containsKey d k = false) : lookupA d k = none := by
  unfold containsKey at h
  exact Option.not_isSome_iff_eq_none.mp (by simp [h])

theorem keys_insertA {β : Type} (d : AList β) (k : String) (v : β) :
    (insertA d k v).map Prod.fst =
      if containsKey d k then d.map Prod.fst else d.map Prod.fst ++ [k] := by
  induction d with
  | nil => simp [insertA, containsKey, lookupA]
  | cons p rest ih =>
    obtain ⟨k0, v0⟩ := p
    by_cases h0 : k0 = k
    · simp [insertA, h0, containsKey, lookupA]
    · simp only [insertA, if_neg h0, List.map_cons, ih, containsKey, lookupA, if_neg h0]
      by_cases hc : containsKey rest k
      · simp [containsKey] at hc
        simp [hc]
      · simp [containsKey] at hc
        simp [hc]

theorem not_containsKey_not_mem_keys {β : Type} {d : AList β} {k : String}
    (h : containsKey d k = false) : k ∉ d.map Prod.fst := by
  intro hmem
  obtain ⟨⟨k', v⟩, hm, hk⟩ := List.mem_map.mp hmem
  cases hk
  rw [mem_containsKey hm] at h
  exact Bool.noConfusion h

theorem keys_insertA_nodup {β : Type} {d : AList β} (k : String) (v : β)
    (h : (d.map Prod.fst).Nodup) : ((insertA d k v).map Prod.fst).Nodup := by
  rw [keys_insertA]
  by_cases hc : containsKey d k
  · simpa [hc]
  · simp only [Bool.not_eq_true] at hc
    simp [hc, List.nodup_append, h, not_containsKey_not_mem_keys hc]

theorem lookupA_eq_of_nodup {β : Type} {d : AList β}
    (h : (d.map Prod.fst).Nodup) {k : String} {v : β} (hm : (k, v) ∈ d) :
    lookupA d k = some v := by
  induction d with
  | nil => simp at hm
  | cons p rest ih =>
    obtain ⟨k0, v0⟩ := p
    simp only [List.map_cons, List.nodup_cons] at h
    rcases List.mem_cons.mp hm with h1 | h1
    · obtain ⟨hk, hv⟩ := Prod.mk.injEq .. ▸ h1
      simp [lookupA, hk.symm, hv]
    · by_cases h0 : k0 = k
      · subst h0
        exact absurd (List.mem_map.mpr ⟨(k0, v), h1, rfl⟩) h.1
      · simp [lookupA, h0]
        exact ih h.2 h1

theorem dictEq_refl {d : Fingerprint} (h : (d.map Prod.fst).Nodup) :
    dictEq d d = true := by
  unfold dictEq
  have : ∀ p ∈ d, (lookupA d p.1 == some p.2) = true := by
    intro p hp
    rw [lookupA_eq_of_nodup h hp]
    exact beq_self_eq_true _
  simp [List.all_eq_true.mpr this]

/-! Character-level lemmas for the normalizer. -/

theorem char_ofNat_toNat (n : Nat) (h : n < 0xD800) : (Char.ofNat n).toNat = n := by
  simp [Char.ofNat, Nat.isValidChar, h, Char.ofNatAux, Char.toNat, UInt32.toNat,
    BitVec.toNat_ofNatLt]

theorem toLower_toNat_of_upper (c : Char) (h1 : 65 ≤ c.toNat) (h2 : c.toNat ≤ 90) :
    (Char.toLower c).toNat = c.toNat + 32 := by
  unfold Char.toLower
  simp only [h1, h2, and_self, if_pos]
  exact char_ofNat_toNat _ (by omega)

theorem toLower_eq_self (c : Char) (h : ¬(65 ≤ c.toNat ∧ c.toNat ≤ 90)) :
    Char.toLower c = c := by
  unfold Char.toLower
  simp only [ge_iff_le, ite_eq_right_iff]
  intro hc
  exact absurd hc h

theorem toLower_idem (c : Char) : Char.toLower (Char.toLower c) = Char.toLower c := by
  by_cases h : 65 ≤ c.toNat ∧ c.toNat ≤ 90
  · have := toLower_toNat_of_upper c h.1 h.2
    exact toLower_eq_self _ (by omega)
  · rw [toLower_eq_self c h, toLower_eq_self c h]

theorem ofNat_lower_isAlphanum (m : Nat) (h1 : 97 ≤ m) (h2 : m ≤ 122) :
    (Char.ofNat m).isAlphanum = true := by
  interval_cases m <;> decide

theorem pyIsWordChar_toLower (c : Char) (h : pyIsWordChar c = true) :
    pyIsWordChar (Char.toLower c) = true := by
  by_cases hu : 65 ≤ c.toNat ∧ c.toNat ≤ 90
  · have hlow : Char.toLower c = Char.ofNat (c.toNat + 32) := by
      unfold Char.toLower
      simp only [hu.1, hu.2, and_self, if_pos]
    rw [hlow]
    unfold pyIsWordChar
    rw [ofNat_lower_isAlphanum (c.toNat + 32) (by omega) (by omega)]
    simp
  · rw [toLower_eq_self c hu]
    exact h

theorem ascii_ne_capitalI {c : Char} (h : isAscii c = true) :
    c ≠ capitalIWithDot := by
  intro he
  subst he
  exact absurd h (by decide)

theorem pyToLower_ascii {c : Char} (h : isAscii c = true) :
    pyToLower c = [Char.toLower c] := by
  unfold pyToLower
  rw [if_neg (ascii_ne_capitalI h)]

theorem isAscii_toLower {c : Char} (h : isAscii c = true) :
    isAscii (Char.toLower c) = true := by
  unfold isAscii at h ⊢
  rw [decide_eq_true_iff] at h ⊢
  by_cases hu : 65 ≤ c.toNat ∧ c.toNat ≤ 90
  · rw [toLower_toNat_of_upper c hu.1 hu.2]
    omega
  · rw [toLower_eq_self c hu]
    exact h

theorem flatMap_pyToLower_ascii :
    ∀ (l : List Char), (∀ c ∈ l, isAscii c = true) →
      l.flatMap pyToLower = l.map Char.toLower
  | [], _ => rfl
  | c :: rest, h => by
    rw [List.flatMap_cons, pyToLower_ascii (h c (List.mem_cons_self c rest)),
      List.map_cons,
      flatMap_pyToLower_ascii rest fun x hx => h x (List.mem_cons_of_mem c hx)]
    rfl

theorem normalizeList_idem_ascii (cs : List Char)
    (h : ∀ c ∈ cs, isAscii c = true) :
    normalizeList (normalizeList cs) = normalizeList cs := by
  unfold normalizeList
  have hfa : ∀ c ∈ cs.filter pyIsWordChar, isAscii c = true :=
    fun c hc => h c (List.mem_of_mem_filter hc)
  rw [flatMap_pyToLower_ascii _ hfa, List.filter_map]
  have hfix : (cs.filter pyIsWordChar).filter (pyIsWordChar ∘ Char.toLower) =
      cs.filter pyIsWordChar := by
    apply List.filter_eq_self.mpr
    intro c hc
    exact pyIsWordChar_toLower c (List.of_mem_filter hc)
  rw [hfix, flatMap_pyToLower_ascii _ ?hmap, List.map_map]
  case hmap =>
    intro c hc
    obtain ⟨c', hc', rfl⟩ := List.mem_map.mp hc
    exact isAscii_toLower (hfa c' hc')
  have hcomp : Char.toLower ∘ Char.toLower = Char.toLower := funext toLower_idem
  rw [hcomp]

/-! Refinement lemmas: on well-formed inputs the source matchers do not
raise, and compute what the total variants compute. -/

theorem except_ok_bind {α β : Type} (a : α) (f : α → Except String β) :
    (Except.ok a >>= f) = f a := rfl

theorem initialForms_eq (f : String) (h : f ≠ "") :
    initialForms f = .ok (initialFormsT f) := by
  match hdata : f.data with
  | [] =>
    have : f = "" := by
      cases f
      simp only [String.data] at hdata
      simp [hdata]
    exact absurd this h
  | c :: rest =>
    simp [initialForms, initialFormsT, hdata]

theorem authorStep_eq (d : Fingerprint) (a : Person) (h : wfPerson a = true) :
    authorStep d a = .ok (authorStepT d a) := by
  unfold wfPerson at h
  rw [Bool.and_eq_true] at h
  obtain ⟨h1, h2⟩ := h
  unfold authorStep authorStepT
  cases hf : a.first with
  | none =>
    cases hm : a.middle with
    | none => rfl
    | some m =>
      rw [hm] at h2
      simp only [bne_iff_ne, ne_eq] at h2
      simp [initialForms_eq m h2, except_ok_bind]
  | some f =>
    rw [hf] at h1
    simp only [bne_iff_ne, ne_eq] at h1
    cases hm : a.middle with
    | none => simp [initialForms_eq f h1, except_ok_bind]
    | some m =>
      rw [hm] at h2
      simp only [bne_iff_ne, ne_eq] at h2
      simp [initialForms_eq f h1, initialForms_eq m h2, except_ok_bind]

theorem foldlM_authorStep (ps : List Person) (d : Fingerprint)
    (h : ps.all wfPerson = true) :
    ps.foldlM authorStep d = .ok (ps.foldl authorStepT d) := by
  induction ps generalizing d with
  | nil => rfl
  | cons a rest ih =>
    rw [List.all_cons, Bool.and_eq_true] at h
    rw [List.foldlM_cons, authorStep_eq d a h.1, except_ok_bind, List.foldl_cons]
    exact ih _ h.2

theorem wf_getField {e : Record} {f : String} {v : Value}
    (h : wfRecord e = true) (hv : getField e f = some v) : wfValue f v = true :=
  List.all_eq_true.mp h (f, v) (lookupA_some_mem hv)

theorem wfValue_author {v : Value} (h : wfValue "author" v = true) :
    ∃ ps, v = .authors ps ∧ ps.all wfPerson = true := by
  unfold wfValue at h
  cases v with
  | str s => simp at h
  | authors ps => exact ⟨ps, rfl, by simpa using h⟩

theorem wfValue_str {f : String} {v : Value} (hf : f ≠ "author")
    (h : wfValue f v = true) : ∃ s, v = .str s := by
  unfold wfValue at h
  rw [if_neg hf] at h
  cases v with
  | str s => exact ⟨s, rfl⟩
  | authors ps => simp at h

theorem author_equiv_eq {e : Record} (h : wfRecord e = true)
    (hp : hasField e "author" = true) :
    author_name_equivalence e = .ok (author_name_equivalenceT e) := by
  unfold hasField at hp
  obtain ⟨v, hv⟩ := Option.isSome_iff_exists.mp hp
  obtain ⟨ps, hps, hwf⟩ := wfValue_author (wf_getField h hv)
  subst hps
  unfold author_name_equivalence author_name_equivalenceT
  rw [hv]
  exact foldlM_authorStep ps [] hwf

theorem entries_match_eq {e1 e2 : Record} (f : String)
    (h1 : wfRecord e1 = true) (h2 : wfRecord e2 = true)
    (p1 : hasField e1 f = true) (p2 : hasField e2 f = true) :
    entries_match e1 e2 f = .ok (entries_matchT e1 e2 f) := by
  by_cases hf : f = "author"
  · subst hf
    unfold entries_match entries_matchT
    rw [if_pos rfl, if_pos rfl, author_equiv_eq h1 p1, except_ok_bind,
      author_equiv_eq h2 p2, except_ok_bind]
    rfl
  · unfold hasField at p1 p2
    obtain ⟨v1, hv1⟩ := Option.isSome_iff_exists.mp p1
    obtain ⟨v2, hv2⟩ := Option.isSome_iff_exists.mp p2
    obtain ⟨s1, hs1⟩ := wfValue_str hf (wf_getField h1 hv1)
    obtain ⟨s2, hs2⟩ := wfValue_str hf (wf_getField h2 hv2)
    subst hs1; subst hs2
    unfold entries_match entries_matchT
    rw [if_neg hf, if_neg hf, hv1, hv2]
    rfl

theorem do_they_have_eq {r1 r2 : Record} (f : String)
    (h1 : wfRecord r1 = true) (h2 : wfRecord r2 = true) :
    do_they_have r1 r2 f = .ok (do_they_haveT r1 r2 f) := by
  unfold do_they_have do_they_haveT
  cases hb : (hasField r1 f && hasField r2 f) with
  | false => rfl
  | true =>
    rw [Bool.and_eq_true] at hb
    simp only [if_pos rfl]
    rw [entries_match_eq f h1 h2 hb.1 hb.2, except_ok_bind]
    rfl

/-! Reconciliation-engine lemmas. -/

theorem except_error_bind {α β : Type} (e : String) (f : α → Except String β) :
    ((Except.error e : Except String α) >>= f) = .error e := rfl

theorem wfCollection_mem {c : Collection} (h : wfCollection c = true)
    {p : String × Record} (hp : p ∈ c) : wfRecord p.2 = true :=
  List.all_eq_true.mp h p hp

theorem processPair_eq (k1 : String) (e1 : Record) (k2 : String) (e2 : Record)
    (acc : List (List String) × Bool × Nat)
    (h1 : wfRecord e1 = true) (h2 : wfRecord e2 = true) :
    processPair k1 e1 k2 e2 acc = .ok (processPairT k1 e1 k2 e2 acc) := by
  unfold processPair processPairT
  rw [do_they_have_eq "title" h1 h2, except_ok_bind,
    do_they_have_eq "author" h1 h2, except_ok_bind]
  split <;> rfl

theorem scanFold_eq (k1 : String) (e1 : Record) (h1 : wfRecord e1 = true) :
    ∀ (right : Collection) (acc : List (List String) × Bool × Nat),
      wfCollection right = true →
      right.foldlM (fun acc p => processPair k1 e1 p.1 p.2 acc) acc =
        .ok (right.foldl (fun acc p => processPairT k1 e1 p.1 p.2 acc) acc)
  | [], _, _ => rfl
  | p :: rest, acc, hr => by
    simp only [wfCollection, List.all_cons, Bool.and_eq_true] at hr
    rw [List.foldlM_cons, processPair_eq k1 e1 p.1 p.2 acc h1 hr.1, except_ok_bind,
      List.foldl_cons]
    exact scanFold_eq k1 e1 h1 rest _ (by simpa [wfCollection] using hr.2)

theorem scanRightE_eq (k1 : String) (e1 : Record) (right : Collection)
    (h1 : wfRecord e1 = true) (hr : wfCollection right = true) :
    scanRightE k1 e1 right = .ok (scanRight k1 e1 right) :=
  scanFold_eq k1 e1 h1 right ([], false, 0) hr

theorem leftStep_eq (right : Collection) (st : ScanState) (p : String × Record)
    (hp : wfRecord p.2 = true) (hr : wfCollection right = true) :
    leftStep right st p = .ok (leftStepT right st p) := by
  unfold leftStep leftStepT
  rw [scanRightE_eq p.1 p.2 right hp hr, except_ok_bind]
  rcases hsr : scanRight p.1 p.2 right with ⟨rows, fr, ft⟩
  rfl

theorem compareFold_eq (right : Collection) (hr : wfCollection right = true) :
    ∀ (left : Collection) (st : ScanState), wfCollection left = true →
      left.foldlM (leftStep right) st = .ok (left.foldl (leftStepT right) st)
  | [], _, _ => rfl
  | p :: rest, st, hl => by
    simp only [wfCollection, List.all_cons, Bool.and_eq_true] at hl
    rw [List.foldlM_cons, leftStep_eq right st p hl.1 hr, except_ok_bind,
      List.foldl_cons]
    exact compareFold_eq right hr rest _ (by simpa [wfCollection] using hl.2)

theorem compare_files_eq (left right : Collection)
    (hl : wfCollection left = true) (hr : wfCollection right = true) :
    compare_files left right = .ok (compareFilesT left right) :=
  compareFold_eq right hr left ⟨[], [], []⟩ hl

theorem processPairT_fr (k1 : String) (e1 : Record) (k2 : String) (e2 : Record)
    (acc : List (List String) × Bool × Nat) :
    (processPairT k1 e1 k2 e2 acc).2.1 = (acc.2.1 || isCandidate e1 e2) := by
  unfold processPairT isCandidate pairScore
  split
  · next h => simp [h]
  · next h => simp [h]

theorem processPairT_ft (k1 : String) (e1 : Record) (k2 : String) (e2 : Record)
    (acc : List (List String) × Bool × Nat) :
    (processPairT k1 e1 k2 e2 acc).2.2 =
      acc.2.2 + (if isStrong e1 e2 then 1 else 0) := by
  unfold processPairT isStrong pairScore
  by_cases hc : do_they_haveT e1 e2 "title" + do_they_haveT e1 e2 "author" > 2
  · rw [if_pos hc]
    by_cases h6 : do_they_haveT e1 e2 "title" + do_they_haveT e1 e2 "author" = 6
    · simp [h6]
    · simp [h6]
  · rw [if_neg hc]
    have h6 : do_they_haveT e1 e2 "title" + do_they_haveT e1 e2 "author" ≠ 6 := by
      omega
    simp [h6]

theorem scanFoldT_fr (k1 : String) (e1 : Record) :
    ∀ (right : Collection) (acc : List (List String) × Bool × Nat),
      (right.foldl (fun acc p => processPairT k1 e1 p.1 p.2 acc) acc).2.1 =
        (acc.2.1 || anyCandidate e1 right)
  | [], acc => by simp [anyCandidate]
  | p :: rest, acc => by
    rw [List.foldl_cons, scanFoldT_fr k1 e1 rest _, processPairT_fr]
    simp [anyCandidate, Bool.or_assoc]

theorem scanFoldT_ft (k1 : String) (e1 : Record) :
    ∀ (right : Collection) (acc : List (List String) × Bool × Nat),
      (right.foldl (fun acc p => processPairT k1 e1 p.1 p.2 acc) acc).2.2 =
        acc.2.2 + countStrong e1 right
  | [], acc => by simp [countStrong]
  | p :: rest, acc => by
    rw [List.foldl_cons, scanFoldT_ft k1 e1 rest _, processPairT_ft]
    unfold countStrong
    rw [List.filter_cons]
    by_cases hs : isStrong e1 p.2
    · simp [hs]
      omega
    · simp [hs]

theorem scanRight_fr (k1 : String) (e1 : Record) (right : Collection) :
    (scanRight k1 e1 right).2.1 = anyCandidate e1 right := by
  unfold scanRight
  rw [scanFoldT_fr]
  simp

theorem scanRight_ft (k1 : String) (e1 : Record) (right : Collection) :
    (scanRight k1 e1 right).2.2 = countStrong e1 right := by
  unfold scanRight
  rw [scanFoldT_ft]
  simp

theorem isStrong_isCandidate {e1 e2 : Record} (h : isStrong e1 e2 = true) :
    isCandidate e1 e2 = true := by
  unfold isStrong at h
  unfold isCandidate
  rw [Nat.beq_eq_true_eq] at h
  simp [h]

theorem countStrong_pos_any {e1 : Record} {right : Collection}
    (h : 0 < countStrong e1 right) : anyCandidate e1 right = true := by
  unfold countStrong at h
  rw [List.length_pos] at h
  obtain ⟨p, hp⟩ := List.exists_mem_of_ne_nil _ h
  rw [List.mem_filter] at hp
  unfold anyCandidate
  rw [List.any_eq_true]
  exact ⟨p, hp.1, isStrong_isCandidate hp.2⟩

/-! Self-match lemmas: a record compared with itself. -/

theorem authorStepT_keys_nodup (d : Fingerprint) (a : Person)
    (h : (d.map Prod.fst).Nodup) : ((authorStepT d a).map Prod.fst).Nodup := by
  unfold authorStepT
  cases a.first with
  | none =>
    cases a.middle with
    | none => exact h
    | some m => exact keys_insertA_nodup a.last (initialFormsT m) h
  | some f =>
    cases a.middle with
    | none => exact keys_insertA_nodup a.last (initialFormsT f) h
    | some m =>
      exact keys_insertA_nodup a.last (initialFormsT m)
        (keys_insertA_nodup a.last (initialFormsT f) h)

theorem foldl_authorStepT_keys_nodup :
    ∀ (ps : List Person) (d : Fingerprint), (d.map Prod.fst).Nodup →
      ((ps.foldl authorStepT d).map Prod.fst).Nodup
  | [], _, h => h
  | a :: rest, d, h =>
    List.foldl_cons .. ▸
      foldl_authorStepT_keys_nodup rest (authorStepT d a) (authorStepT_keys_nodup d a h)

theorem author_equivT_keys_nodup (e : Record) :
    ((author_name_equivalenceT e).map Prod.fst).Nodup := by
  unfold author_name_equivalenceT
  cases h : getField e "author" with
  | none => simp
  | some v =>
    cases v with
    | str s => simp
    | authors ps => exact foldl_authorStepT_keys_nodup ps [] (by simp)

theorem do_they_haveT_self_nonauthor (e : Record) (f : String)
    (hf : f ≠ "author") (hp : hasField e f = true) : do_they_haveT e e f = 3 := by
  unfold do_they_haveT
  rw [hp]
  unfold entries_matchT
  rw [if_neg hf]
  simp

theorem do_they_haveT_self_author (e : Record)
    (hp : hasField e "author" = true) : do_they_haveT e e "author" = 3 := by
  unfold do_they_haveT
  rw [hp]
  unfold entries_matchT
  rw [if_pos rfl, dictEq_refl (author_equivT_keys_nodup e)]
  simp

theorem compareFoldT_no_matches (right : Collection) :
    ∀ (left : Collection) (st : ScanState),
      (∀ p ∈ left, anyCandidate p.2 right = true) →
      (left.foldl (leftStepT right) st).no_matches = st.no_matches
  | [], _, _ => rfl
  | p :: rest, st, h => by
    rw [List.foldl_cons,
      compareFoldT_no_matches right rest _ fun q hq => h q (List.mem_cons_of_mem p hq)]
    unfold leftStepT
    rw [scanRight_fr, h p (List.mem_cons_self p rest)]
    rfl

/-! Merge-engine lemmas. -/

theorem except_pure_bind {α β : Type} (a : α) (f : α → Except String β) :
    ((pure a : Except String α) >>= f) = f a := rfl

theorem inv_fold_mem :
    ∀ (data : Collection) (acc res : AList String × List String),
      data.foldlM invStep acc = .ok res → ∀ q ∈ res.1,
        q ∈ acc.1 ∨ ∃ r t, (q.2, r) ∈ data ∧
          getField r "title" = some (Value.str t) ∧ q.1 = normalize t
  | [], acc, res, h, q, hq => by
    rw [List.foldlM_nil] at h
    cases h
    exact Or.inl hq
  | p :: rest, acc, res, h, q, hq => by
    rw [List.foldlM_cons] at h
    unfold invStep at h
    cases hv : getField p.2 "title" with
    | none =>
      rw [hv, except_pure_bind] at h
      rcases inv_fold_mem rest _ res h q hq with h1 | ⟨r, t, hm, ht, hn⟩
      · exact Or.inl h1
      · exact Or.inr ⟨r, t, List.mem_cons_of_mem p hm, ht, hn⟩
    | some v =>
      cases v with
      | authors ps =>
        rw [hv] at h
        simp only [normalizeArg, except_error_bind] at h
        exact Except.noConfusion h
      | str s =>
        rw [hv] at h
        simp only [normalizeArg, except_ok_bind, except_pure_bind] at h
        rcases inv_fold_mem rest _ res h q hq with h1 | ⟨r, t, hm, ht, hn⟩
        · rcases mem_insertA h1 with h2 | ⟨h2, h3⟩
          · exact Or.inl h2
          · refine Or.inr ⟨p.2, s, ?_, hv, h2⟩
            rw [h3]
            exact List.mem_cons_self p rest
        · exact Or.inr ⟨r, t, List.mem_cons_of_mem p hm, ht, hn⟩

theorem inv_index_mem {data : Collection} {idx : AList String} {ws : List String}
    (h : dict_invertion_w_no_key_warning data = .ok (idx, ws)) {fp k : String}
    (hl : lookupA idx fp = some k) :
    ∃ r t, (k, r) ∈ data ∧ getField r "title" = some (Value.str t) ∧
      fp = normalize t := by
  rcases inv_fold_mem data ([], []) (idx, ws) h (fp, k) (lookupA_some_mem hl) with
    h1 | h1
  · simp at h1
  · exact h1

theorem inv_fold_warn_mono :
    ∀ (data : Collection) (acc res : AList String × List String),
      data.foldlM invStep acc = .ok res → ∀ x ∈ acc.2, x ∈ res.2
  | [], acc, res, h, x, hx => by
    rw [List.foldlM_nil] at h
    cases h
    exact hx
  | p :: rest, acc, res, h, x, hx => by
    rw [List.foldlM_cons] at h
    unfold invStep at h
    cases hv : getField p.2 "title" with
    | none =>
      rw [hv, except_pure_bind] at h
      exact inv_fold_warn_mono rest _ res h x (List.mem_append_left _ hx)
    | some v =>
      cases v with
      | authors ps =>
        rw [hv] at h
        simp only [normalizeArg, except_error_bind] at h
        exact Except.noConfusion h
      | str s =>
        rw [hv] at h
        simp only [normalizeArg, except_ok_bind, except_pure_bind] at h
        exact inv_fold_warn_mono rest _ res h x hx

theorem inv_fold_warn :
    ∀ (data : Collection) (acc res : AList String × List String),
      data.foldlM invStep acc = .ok res →
      ∀ p ∈ data, hasField p.2 "title" = false → p.1 ∈ res.2
  | [], _, _, _, p, hp, _ => by simp at hp
  | q :: rest, acc, res, h, p, hp, hnt => by
    rw [List.foldlM_cons] at h
    unfold invStep at h
    rcases List.mem_cons.mp hp with h1 | h1
    · subst h1
      have hv : getField p.2 "title" = none := by
        unfold hasField at hnt
        exact Option.not_isSome_iff_eq_none.mp (by simp [hnt])
      rw [hv, except_pure_bind] at h
      exact inv_fold_warn_mono rest _ res h p.1
        (List.mem_append_right _ (List.mem_singleton.mpr rfl))
    · cases hv : getField q.2 "title" with
      | none =>
        rw [hv, except_pure_bind] at h
        exact inv_fold_warn rest _ res h p h1 hnt
      | some v =>
        cases v with
        | authors ps =>
          rw [hv] at h
          simp only [normalizeArg, except_error_bind] at h
          exact Except.noConfusion h
        | str s =>
          rw [hv] at h
          simp only [normalizeArg, except_ok_bind, except_pure_bind] at h
          exact inv_fold_warn rest _ res h p h1 hnt

theorem mergeFold_not_mem (incoming : Collection) :
    ∀ (ks : List String) (acc res : Collection) (k : String),
      ks.foldlM (mergeStep incoming) acc = .ok res → k ∉ ks →
      lookupA res k = lookupA acc k
  | [], acc, res, k, h, _ => by
    rw [List.foldlM_nil] at h
    cases h
    rfl
  | k0 :: rest, acc, res, k, h, hk => by
    rw [List.foldlM_cons] at h
    unfold mergeStep at h
    cases hl : lookupA incoming k0 with
    | none =>
      rw [hl, except_error_bind] at h
      cases h
    | some r0 =>
      rw [hl, except_pure_bind] at h
      rw [mergeFold_not_mem incoming rest _ res k h (fun hm => hk (List.mem_cons_of_mem _ hm)),
        lookupA_insertA_ne acc k0 k r0 (fun he => hk (he ▸ List.mem_cons_self k0 rest))]

theorem mergeFold_lookup (incoming : Collection) :
    ∀ (ks : List String) (acc res : Collection) (k : String) (r : Record),
      ks.foldlM (mergeStep incoming) acc = .ok res → k ∈ ks →
      lookupA incoming k = some r → lookupA res k = some r
  | [], _, _, k, _, _, hm, _ => by simp at hm
  | k0 :: rest, acc, res, k, r, h, hm, hr => by
    rw [List.foldlM_cons] at h
    unfold mergeStep at h
    cases hl : lookupA incoming k0 with
    | none =>
      rw [hl, except_error_bind] at h
      cases h
    | some r0 =>
      rw [hl, except_pure_bind] at h
      by_cases hin : k ∈ rest
      · exact mergeFold_lookup incoming rest _ res k r h hin hr
      · have hk0 : k = k0 := by
          rcases List.mem_cons.mp hm with h1 | h1
          · exact h1
          · exact absurd h1 hin
        subst hk0
        rw [mergeFold_not_mem incoming rest _ res k h hin, lookupA_insertA_self]
        rw [hl] at hr
        exact hr

theorem mergeFold_ok (incoming : Collection) :
    ∀ (ks : List String) (acc : Collection),
      (∀ k ∈ ks, containsKey incoming k = true) →
      ∃ res, ks.foldlM (mergeStep incoming) acc = .ok res
  | [], acc, _ => ⟨acc, rfl⟩
  | k0 :: rest, acc, h => by
    obtain ⟨r0, hr0⟩ := containsKey_exists (h k0 (List.mem_cons_self k0 rest))
    obtain ⟨res, hres⟩ := mergeFold_ok incoming rest (insertA acc k0 r0)
      fun k hk => h k (List.mem_cons_of_mem _ hk)
    refine ⟨res, ?_⟩
    rw [List.foldlM_cons]
    unfold mergeStep
    rw [hr0, except_pure_bind]
    exact hres

/-! Spec-side definitions: stated from the specification's words, to be
compared with the definitions embedded from the source. -/

/-- Mirror of a verdict under swapping the two records, per the spec's C8
sentence: AGREE (3), DISAGREE (4) and BOTH_ABSENT (0) are unchanged,
LEFT_ABSENT (1) and RIGHT_ABSENT (2) swap. -/
def mirrorVerdict (v : Nat) : Nat :=
  if v = 1 then 2 else if v = 2 then 1 else v

/-- Letter-or-digit test from the C6 claim's words, on the modelled
fragment (Unicode-aware: the ASCII letters and digits, plus the letter
U+0130; the underscore is not a letter or digit, and the combining mark
U+0307 is not either). -/
def isLetterOrDigitFrag (c : Char) : Bool :=
  c.isAlpha || c.isDigit || c = capitalIWithDot

/-- Unicode-aware lowercase of one character per the spec's words, on the
modelled fragment: A-Z to a-z, the letter U+0130 to i, U+0307. -/
def lowerFrag (c : Char) : List Char :=
  if c = capitalIWithDot then ['i', combiningDotAbove] else [Char.toLower c]

/-- Normalizer as the spec's C6 sentence literally states it, written by
direct recursion over the characters: remove every character that is not
a letter or digit (Unicode-aware), lowercase the remainder
(Unicode-aware). -/
def normalizeSpecC6Chars : List Char → List Char
  | [] => []
  | c :: rest =>
      if isLetterOrDigitFrag c then lowerFrag c ++ normalizeSpecC6Chars rest
      else normalizeSpecC6Chars rest

/-- String wrapper of `normalizeSpecC6Chars`. -/
def normalizeSpecC6 (s : String) : String :=
  String.mk (normalizeSpecC6Chars s.data)

/-- Normalizer per the amended C6 claim, written by direct recursion over
the characters: remove every character that is not a word character — a
letter or digit (Unicode-aware) or the underscore — and lowercase the
remainder (Unicode-aware). -/
def normalizeSpecC6AmendedChars : List Char → List Char
  | [] => []
  | c :: rest =>
      if isLetterOrDigitFrag c || c = '_' then
        lowerFrag c ++ normalizeSpecC6AmendedChars rest
      else normalizeSpecC6AmendedChars rest

/-- String wrapper of `normalizeSpecC6AmendedChars`. -/
def normalizeSpecC6Amended (s : String) : String :=
  String.mk (normalizeSpecC6AmendedChars s.data)

theorem pyIsWordChar_eq_amendedClass (c : Char) :
    pyIsWordChar c = (isLetterOrDigitFrag c || c = '_') := by
  by_cases h1 : c.isAlpha = true <;> by_cases h2 : c.isDigit = true <;>
    by_cases h3 : c = capitalIWithDot <;> by_cases h4 : c = '_' <;>
      simp [pyIsWordChar, isLetterOrDigitFrag, Char.isAlphanum, h1, h2, h3, h4]

theorem normalizeList_eq_specC6Amended :
    ∀ cs : List Char, normalizeList cs = normalizeSpecC6AmendedChars cs
  | [] => rfl
  | c :: rest => by
    have hrest := normalizeList_eq_specC6Amended rest
    unfold normalizeList at hrest ⊢
    unfold normalizeSpecC6AmendedChars
    rw [List.filter_cons, ← pyIsWordChar_eq_amendedClass c]
    by_cases hw : pyIsWordChar c = true
    · rw [if_pos hw, if_pos hw, List.flatMap_cons, hrest]
      rfl
    · rw [if_neg hw, if_neg hw, hrest]

/-- Value agreement as the spec's C2 sentence states it: fingerprint
equality for `author`, normalized string equality otherwise (in particular
normalized-title equality for `title`). -/
def matchSpecC2 (r1 r2 : Record) (f : String) : Bool :=
  if f = "author" then
    dictEq (author_name_equivalenceT r1) (author_name_equivalenceT r2)
  else
    match getField r1 f, getField r2 f with
    | some (.str s1), some (.str s2) => normalize s1 == normalize s2
    | _, _ => false

theorem entries_matchT_eq_spec {r1 r2 : Record} (f : String)
    (h1 : wfRecord r1 = true) (h2 : wfRecord r2 = true)
    (p1 : hasField r1 f = true) (p2 : hasField r2 f = true) :
    entries_matchT r1 r2 f = matchSpecC2 r1 r2 f := by
  unfold entries_matchT matchSpecC2
  by_cases hf : f = "author"
  · simp [hf]
  · unfold hasField at p1 p2
    obtain ⟨v1, hv1⟩ := Option.isSome_iff_exists.mp p1
    obtain ⟨v2, hv2⟩ := Option.isSome_iff_exists.mp p2
    obtain ⟨s1, hs1⟩ := wfValue_str hf (wf_getField h1 hv1)
    obtain ⟨s2, hs2⟩ := wfValue_str hf (wf_getField h2 hv2)
    subst hs1; subst hs2
    rw [if_neg hf, if_neg hf, hv1, hv2]
    rfl

/-! Claim theorems, witnesses and counterexamples. -/

/-- C6 counterexample: on the underscore, `normalize` keeps the character
while the spec's "remove every character that is not a letter or digit"
removes it, so the two disagree. -/
theorem C6_counterexample :
    normalize "_" = "_" ∧ normalizeSpecC6 "_" = "" ∧
      normalize "_" ≠ normalizeSpecC6 "_" := by
  refine ⟨?_, ?_, ?_⟩ <;> decide

/-- C6 (amended): for every string over the modelled fragment of Unicode,
`normalize` returns the input with every character that is not a word
character — a letter or digit (Unicode-aware) or the underscore — removed
and the remainder lowercased (Unicode-aware); it is a total function on
strings (a plain Lean function, hence pure and deterministic). -/
theorem C6_amended (s : String) (_h : s.data.all modeledChar = true) :
    normalize s = normalizeSpecC6Amended s := by
  unfold normalize normalizeSpecC6Amended
  exact congrArg String.mk (normalizeList_eq_specC6Amended s.data)

/-- C6 witness: the amended theorem applied at a string containing a
letter, an underscore and the non-ASCII letter U+0130. -/
theorem C6_witness :
    "A_İ".data.all modeledChar = true ∧
      normalize "A_İ" = normalizeSpecC6Amended "A_İ" :=
  ⟨by decide, C6_amended "A_İ" (by decide)⟩

/-- C8: swapping the two record arguments of `field_values_match_multiple`
yields the mirror-image verdict: 0, 3 and 4 are unchanged while 1 and 2
swap with each other. -/
theorem C8_swap_mirror (e1 e2 : Record) (f : String) :
    field_values_match_multiple e2 e1 f =
      mirrorVerdict (field_values_match_multiple e1 e2 f) := by
  unfold field_values_match_multiple mirrorVerdict
  by_cases hA : hasField e1 f = true
  · by_cases hB : hasField e2 f = true
    · by_cases hv : getField e1 f = getField e2 f
      · simp [hA, hB, hv]
      · have hv' : getField e2 f ≠ getField e1 f := fun h => hv h.symm
        simp [hA, hB, hv, hv']
    · simp [hA, hB]
  · by_cases hB : hasField e2 f = true
    · simp [hA, hB]
    · simp [hA, hB]

/-- C9 counterexample: `normalize` is not idempotent. On U+0130 the first
pass keeps the character (a word character) and lowercases it to the two
characters i, U+0307; the second pass strips the combining dot, which is
not a word character. -/
theorem C9_counterexample :
    normalize (String.mk [capitalIWithDot]) = String.mk ['i', combiningDotAbove] ∧
    normalize (normalize (String.mk [capitalIWithDot])) = "i" ∧
    normalize (normalize (String.mk [capitalIWithDot])) ≠
      normalize (String.mk [capitalIWithDot]) := by
  refine ⟨?_, ?_, ?_⟩ <;> decide

/-- C9 (amended): `normalize` is idempotent on ASCII strings — for every
string of ASCII characters, normalize(normalize(s)) equals normalize(s). -/
theorem C9_normalize_idempotent (s : String) (h : s.data.all isAscii = true) :
    normalize (normalize s) = normalize s := by
  unfold normalize
  exact congrArg String.mk (normalizeList_idem_ascii s.data (List.all_eq_true.mp h))

/-- C9 witness: the amended theorem applied at a concrete ASCII string. -/
theorem C9_witness :
    "Ab_1".data.all isAscii = true ∧
      normalize (normalize "Ab_1") = normalize "Ab_1" :=
  ⟨by decide, C9_normalize_idempotent "Ab_1" (by decide)⟩

/-- C10 counterexample: a record whose author list contains a person with a
`last` entry but an empty-string first name makes `do_they_have` raise
(`author['first'][0]` is an `IndexError`), even though every present field
value is of the assumed shape. -/
theorem C10_counterexample :
    do_they_have [("author", Value.authors [⟨"Smith", some "", none⟩])]
      [("author", Value.authors [⟨"Smith", some "", none⟩])] "author" =
      .error "IndexError" := rfl

/-- C10 (amended): `do_they_have` never raises provided present field
values are strings — or, for `author`, lists of persons each having a
`last` entry — and additionally every present `first`/`middle` name is
nonempty (`wfRecord`). -/
theorem C10_amended (r1 r2 : Record) (f : String)
    (h1 : wfRecord r1 = true) (h2 : wfRecord r2 = true) :
    ∃ n, do_they_have r1 r2 f = .ok n :=
  ⟨do_they_haveT r1 r2 f, do_they_have_eq f h1 h2⟩

/-- C10 witness: the amended theorem applied at a concrete pair of
well-formed records. -/
theorem C10_witness :
    ∃ n, do_they_have [("author", Value.authors [⟨"Smith", some "J", none⟩])]
      [("author", Value.authors [⟨"Smith", some "John", none⟩])] "author" =
      .ok n :=
  C10_amended _ _ "author" (by decide) (by decide)

/-- C2 counterexample: one record has the field and the other does not, yet
`do_they_have` returns 0 — so 0 does not mean "both records lack the
field". -/
theorem C2_counterexample :
    do_they_have [("title", Value.str "a")] [] "title" = .ok 0 ∧
    hasField [("title", Value.str "a")] "title" = true ∧
    hasField ([] : Record) "title" = false :=
  ⟨rfl, rfl, rfl⟩

/-- C2 (amended): on well-formed records, `do_they_have` returns 3 iff both
records have the field and the values match (normalized equality for
non-author fields, fingerprint equality for `author`), 1 iff both have the
field and the values do not match, and 0 iff at least one record lacks the
field (not only when both do). -/
theorem C2_amended (r1 r2 : Record) (f : String)
    (h1 : wfRecord r1 = true) (h2 : wfRecord r2 = true) :
    (do_they_have r1 r2 f = .ok 3 ↔
      hasField r1 f = true ∧ hasField r2 f = true ∧
        matchSpecC2 r1 r2 f = true) ∧
    (do_they_have r1 r2 f = .ok 1 ↔
      hasField r1 f = true ∧ hasField r2 f = true ∧
        matchSpecC2 r1 r2 f = false) ∧
    (do_they_have r1 r2 f = .ok 0 ↔
      ¬(hasField r1 f = true ∧ hasField r2 f = true)) := by
  rw [do_they_have_eq f h1 h2]
  unfold do_they_haveT
  by_cases hp1 : hasField r1 f = true
  · by_cases hp2 : hasField r2 f = true
    · have hm := entries_matchT_eq_spec f h1 h2 hp1 hp2
      rw [hp1, hp2]
      cases hmv : matchSpecC2 r1 r2 f with
      | true => simp [hm, hmv]
      | false => simp [hm, hmv]
    · simp [hp1, hp2]
  · simp [hp1]

/-- C2 witness: the amended theorem applied at concrete records that share
an equal normalized title. -/
theorem C2_witness :
    do_they_have [("title", Value.str "Deep Learning")]
        [("title", Value.str "deep learning")] "title" = .ok 3 ↔
      hasField [("title", Value.str "Deep Learning")] "title" = true ∧
      hasField [("title", Value.str "deep learning")] "title" = true ∧
      matchSpecC2 [("title", Value.str "Deep Learning")]
        [("title", Value.str "deep learning")] "title" = true :=
  (C2_amended _ _ "title" (by decide) (by decide)).1

/-- C3: in the inner loop of `compare_files`, a left/right pair is
classified as a candidate match — a report row is appended and `found_ref`
is set — exactly when the title score plus the author score exceeds 2, and
it is counted as a strong match — `found_times` is incremented — exactly
when that sum equals 6. -/
theorem C3_candidate_strong (k1 : String) (e1 : Record) (k2 : String)
    (e2 : Record) (ms : List (List String)) (fr : Bool) (ft : Nat)
    (out : List (List String) × Bool × Nat) (t a : Nat)
    (h1 : do_they_have e1 e2 "title" = .ok t)
    (h2 : do_they_have e1 e2 "author" = .ok a)
    (h : processPair k1 e1 k2 e2 (ms, fr, ft) = .ok out) :
    ((∃ row, out.1 = ms ++ [row]) ↔ t + a > 2) ∧
    (out.1 = ms ↔ ¬ t + a > 2) ∧
    out.2.1 = (fr || decide (t + a > 2)) ∧
    (out.2.2 = ft + 1 ↔ t + a = 6) ∧
    (out.2.2 = ft ↔ t + a ≠ 6) := by
  unfold processPair at h
  rw [h1, except_ok_bind, h2, except_ok_bind] at h
  by_cases hc : t + a > 2
  · rw [if_pos hc] at h
    cases h
    by_cases h6 : t + a = 6
    · simp [hc, h6]
    · simp [hc, h6]
  · rw [if_neg hc] at h
    cases h
    have h6 : t + a ≠ 6 := by omega
    simp [hc, h6]

/-- Concrete record used by the C3 witness: a title, no author. -/
def recC3 : Record := [("title", Value.str "T")]

/-- Concrete inner-loop output used by the C3 witness: one appended row,
`found_ref` set, no strong match counted (score 3 + 0). -/
def outC3 : List (List String) × Bool × Nat :=
  ([matchRow "x" recC3 "y" recC3 3 0], true, 0)

/-- C3 witness: the theorem applied to a concrete pair scoring 3 + 0. -/
theorem C3_witness :
    ((∃ row, outC3.1 = [] ++ [row]) ↔ 3 + 0 > 2) ∧
    (outC3.1 = [] ↔ ¬ 3 + 0 > 2) ∧
    outC3.2.1 = (false || decide (3 + 0 > 2)) ∧
    (outC3.2.2 = 0 + 1 ↔ 3 + 0 = 6) ∧
    (outC3.2.2 = 0 ↔ 3 + 0 ≠ 6) :=
  C3_candidate_strong "x" recC3 "y" recC3 [] false 0 outC3 3 0 rfl rfl rfl

/-- C5: after scanning all right-collection keys for one left key, the left
key is recorded in the multi-match map with its strong-match count exactly
when that count exceeds 1, and the left key with its full record is
recorded in the unmatched set exactly when no right key formed a candidate
match with it. -/
theorem C5_postscan (right : Collection) (st : ScanState) (k : String)
    (e : Record) (st' : ScanState)
    (he : wfRecord e = true) (hr : wfCollection right = true)
    (h : leftStep right st (k, e) = .ok st') :
    (countStrong e right > 1 →
      st'.match_counter = insertA st.match_counter k (countStrong e right)) ∧
    (countStrong e right ≤ 1 → st'.match_counter = st.match_counter) ∧
    (anyCandidate e right = false →
      st'.no_matches = insertA st.no_matches k e) ∧
    (anyCandidate e right = true → st'.no_matches = st.no_matches) := by
  rw [leftStep_eq right st (k, e) he hr] at h
  cases h
  unfold leftStepT
  refine ⟨?_, ?_, ?_, ?_⟩
  · intro hgt
    have hany : anyCandidate e right = true := countStrong_pos_any (by omega)
    simp only [scanRight_fr, scanRight_ft, hany, if_pos rfl]
    simp [hgt]
  · intro hle
    have hn : ¬ countStrong e right > 1 := by omega
    by_cases hany : anyCandidate e right = true
    · simp only [scanRight_fr, scanRight_ft, hany]
      simp [hn]
    · rw [Bool.not_eq_true] at hany
      simp only [scanRight_fr, scanRight_ft, hany]
      simp
  · intro hany
    simp only [scanRight_fr, hany]
    simp
  · intro hany
    simp only [scanRight_fr, hany]
    simp

/-- Concrete record used by the C5 witness: title and author present. -/
def recC5 : Record :=
  [("title", Value.str "T"),
   ("author", Value.authors [⟨"Hinton", some "Geoffrey", none⟩])]

/-- Concrete right collection for the C5 witness: two entries identical to
the left record, so the left key strong-matches twice. -/
def rightC5 : Collection := [("r1", recC5), ("r2", recC5)]

/-- Concrete post-scan state for the C5 witness. -/
def stC5 : ScanState :=
  { rows := [matchRow "k" recC5 "r1" recC5 3 3, matchRow "k" recC5 "r2" recC5 3 3],
    no_matches := [],
    match_counter := [("k", 2)] }

/-- C5 witness: the theorem applied to a left record that strong-matches
two right entries. -/
theorem C5_witness :
    (countStrong recC5 rightC5 > 1 →
      stC5.match_counter =
        insertA (ScanState.mk [] [] []).match_counter "k"
          (countStrong recC5 rightC5)) ∧
    (countStrong recC5 rightC5 ≤ 1 →
      stC5.match_counter = (ScanState.mk [] [] []).match_counter) ∧
    (anyCandidate recC5 rightC5 = false →
      stC5.no_matches = insertA (ScanState.mk [] [] []).no_matches "k" recC5) ∧
    (anyCandidate recC5 rightC5 = true →
      stC5.no_matches = (ScanState.mk [] [] []).no_matches) :=
  C5_postscan rightC5 ⟨[], [], []⟩ "k" recC5 stC5 (by decide) (by decide) rfl

/-- C4 counterexample: a collection whose single record has neither title
nor author, reconciled against itself: the self-pair scores 0 + 0, so the
key does not strong-match itself and lands in the unmatched set, which is
therefore not empty. -/
theorem C4_counterexample :
    compare_files [("k1", ([] : Record))] [("k1", ([] : Record))] =
      .ok ⟨[], [("k1", [])], []⟩ ∧
    do_they_have ([] : Record) ([] : Record) "title" = .ok 0 ∧
    do_they_have ([] : Record) ([] : Record) "author" = .ok 0 :=
  ⟨rfl, rfl, rfl⟩

/-- C4 (amended): reconciling a well-formed collection in which every
record has both a title and an author against itself makes every left key
strong-match itself (title and author scores are both 3 for the identical
pair) and leaves the unmatched set empty. -/
theorem C4_self_reconcile (l : Collection)
    (hwf : wfCollection l = true)
    (hta : ∀ p ∈ l, hasField p.2 "title" = true ∧ hasField p.2 "author" = true) :
    (∀ p ∈ l, do_they_have p.2 p.2 "title" = .ok 3 ∧
      do_they_have p.2 p.2 "author" = .ok 3) ∧
    ∃ st, compare_files l l = .ok st ∧ st.no_matches = [] := by
  have hself : ∀ p ∈ l, do_they_haveT p.2 p.2 "title" = 3 ∧
      do_they_haveT p.2 p.2 "author" = 3 := by
    intro p hp
    exact ⟨do_they_haveT_self_nonauthor p.2 "title" (by decide) (hta p hp).1,
      do_they_haveT_self_author p.2 (hta p hp).2⟩
  refine ⟨?_, compareFilesT l l, compare_files_eq l l hwf hwf, ?_⟩
  · intro p hp
    have hw := wfCollection_mem hwf hp
    rw [do_they_have_eq "title" hw hw, do_they_have_eq "author" hw hw,
      (hself p hp).1, (hself p hp).2]
    exact ⟨rfl, rfl⟩
  · unfold compareFilesT
    apply compareFoldT_no_matches
    intro p hp
    unfold anyCandidate
    rw [List.any_eq_true]
    refine ⟨p, hp, ?_⟩
    unfold isCandidate pairScore
    rw [(hself p hp).1, (hself p hp).2]
    decide

/-- Concrete collection used by the C4 witness: the spec's own scenario
record, with title, author and year. -/
def collC4 : Collection :=
  [("k1", [("title", Value.str "Deep Learning"),
           ("author", Value.authors [⟨"Hinton", some "Geoffrey", none⟩]),
           ("year", Value.str "2016")])]

/-- C4 witness: the amended theorem applied at the spec's scenario. -/
theorem C4_witness :
    (∀ p ∈ collC4, do_they_have p.2 p.2 "title" = .ok 3 ∧
      do_they_have p.2 p.2 "author" = .ok 3) ∧
    ∃ st, compare_files collC4 collC4 = .ok st ∧ st.no_matches = [] :=
  C4_self_reconcile collC4 (by decide) (by decide)

theorem mergeCore_eq {p i : Collection} {pInvV iInvV : AList String × List String}
    (hp : dict_invertion_w_no_key_warning p = .ok pInvV)
    (hi : dict_invertion_w_no_key_warning i = .ok iInvV) :
    mergeCore p i =
      (((iInvV.1.map Prod.fst).filter fun fp =>
          !(pInvV.1.map Prod.fst).contains fp).filterMap fun fp =>
            lookupA iInvV.1 fp).foldlM (mergeStep i) p := by
  unfold mergeCore
  rw [hp, except_ok_bind, hi, except_ok_bind]

/-- C1 counterexample: primary and incoming share the key `k1` with
different titles; the merge returns normally — no hard error — and the
incoming record silently replaces the primary record under `k1`. -/
theorem C1_counterexample :
    mergeCore [("k1", [("title", Value.str "A")])]
        [("k1", [("title", Value.str "B")])] =
      .ok [("k1", [("title", Value.str "B")])] ∧
    lookupA [("k1", [("title", Value.str "A")])] "k1" ≠
      lookupA [("k1", [("title", Value.str "B")])] "k1" :=
  ⟨rfl, by decide⟩

/-- C1 (amended): whenever an incoming record's title fingerprint is not in
the primary index but its record key already exists as a key in the
primary collection, the merge call succeeds — no error is raised — and the
incoming record silently replaces the primary record under that key. -/
theorem C1_merge_overwrites (p i : Collection)
    (pIdx iIdx : AList String) (pw iw : List String) (fp k : String)
    (hp : dict_invertion_w_no_key_warning p = .ok (pIdx, pw))
    (hi : dict_invertion_w_no_key_warning i = .ok (iIdx, iw))
    (hk : lookupA iIdx fp = some k)
    (hnew : (pIdx.map Prod.fst).contains fp = false)
    (_hcol : containsKey p k = true) :
    ∃ m r, mergeCore p i = .ok m ∧ lookupA i k = some r ∧
      lookupA m k = some r := by
  have hmc := mergeCore_eq hp hi
  have hkeys : ∀ k' ∈ ((iIdx.map Prod.fst).filter fun fp' =>
      !(pIdx.map Prod.fst).contains fp').filterMap fun fp' => lookupA iIdx fp',
      containsKey i k' = true := by
    intro k' hk'
    obtain ⟨fp', _, hl'⟩ := List.mem_filterMap.mp hk'
    obtain ⟨r', t', hm', _, _⟩ := inv_index_mem hi hl'
    exact mem_containsKey hm'
  have hkmem : k ∈ ((iIdx.map Prod.fst).filter fun fp' =>
      !(pIdx.map Prod.fst).contains fp').filterMap fun fp' => lookupA iIdx fp' := by
    apply List.mem_filterMap.mpr
    refine ⟨fp, ?_, hk⟩
    apply List.mem_filter.mpr
    refine ⟨List.mem_map.mpr ⟨(fp, k), lookupA_some_mem hk, rfl⟩, ?_⟩
    rw [hnew]
    rfl
  obtain ⟨m, hm⟩ := mergeFold_ok i _ p hkeys
  obtain ⟨r, hr⟩ := containsKey_exists (hkeys k hkmem)
  exact ⟨m, r, hmc.trans hm, hr, mergeFold_lookup i _ p m k r hm hkmem hr⟩

/-- C1 witness: the amended theorem applied at the counterexample's
collections. -/
theorem C1_witness :
    ∃ m r, mergeCore [("k1", [("title", Value.str "A")])]
        [("k1", [("title", Value.str "B")])] = .ok m ∧
      lookupA [("k1", [("title", Value.str "B")])] "k1" = some r ∧
      lookupA m "k1" = some r :=
  C1_merge_overwrites _ _ [("a", "k1")] [("b", "k1")] [] [] "b" "k1"
    rfl rfl rfl (by decide) (by decide)

/-- Record without a title used by the C7 counterexample and witness. -/
def recC7 : Record := [("year", Value.str "2020")]

/-- C7 counterexample: an incoming record lacking a title is excluded from
the index with a warning — and, contrary to the claim, it is dropped from
the merged output: merging it into an empty primary yields an empty
collection. -/
theorem C7_counterexample :
    mergeCore [] [("k", recC7)] = .ok [] ∧
    dict_invertion_w_no_key_warning [("k", recC7)] = .ok ([], ["k"]) ∧
    lookupA ([] : Collection) "k" = none :=
  ⟨rfl, rfl, rfl⟩

/-- C7 (amended): the title-to-key index is built with `normalize(title)`
as key and records lacking a title are excluded from it with a logged
warning; but an incoming record lacking a title, whose key is not already
a key of the primary collection, is omitted from the merged output rather
than preserved. -/
theorem C7_index_and_drop :
    (∀ (data : Collection) (idx : AList String) (ws : List String),
      dict_invertion_w_no_key_warning data = .ok (idx, ws) →
      (∀ fp k, lookupA idx fp = some k →
        ∃ r t, (k, r) ∈ data ∧ getField r "title" = some (Value.str t) ∧
          fp = normalize t) ∧
      (∀ p ∈ data, hasField p.2 "title" = false → p.1 ∈ ws)) ∧
    (∀ (p i m : Collection) (k : String) (r : Record),
      (i.map Prod.fst).Nodup → mergeCore p i = .ok m →
      containsKey p k = false → lookupA i k = some r →
      hasField r "title" = false → lookupA m k = none) := by
  constructor
  · intro data idx ws h
    exact ⟨fun fp k hl => inv_index_mem h hl,
      fun p hp hnt => inv_fold_warn data ([], []) (idx, ws) h p hp hnt⟩
  · intro p i m k r hnd hm hpk hik hnt
    cases hp : dict_invertion_w_no_key_warning p with
    | error e =>
      unfold mergeCore at hm
      rw [hp, except_error_bind] at hm
      exact Except.noConfusion hm
    | ok pInvV =>
      cases hi : dict_invertion_w_no_key_warning i with
      | error e =>
        unfold mergeCore at hm
        rw [hp, except_ok_bind, hi, except_error_bind] at hm
        exact Except.noConfusion hm
      | ok iInvV =>
        obtain ⟨pIdx, pws⟩ := pInvV
        obtain ⟨iIdx, iws⟩ := iInvV
        rw [mergeCore_eq hp hi] at hm
        have hknot : k ∉ ((iIdx.map Prod.fst).filter fun fp' =>
            !(pIdx.map Prod.fst).contains fp').filterMap fun fp' =>
              lookupA iIdx fp' := by
          intro hkin
          obtain ⟨fp', _, hl'⟩ := List.mem_filterMap.mp hkin
          obtain ⟨r', t', hmem', ht', _⟩ := inv_index_mem hi hl'
          have hlr : lookupA i k = some r' := lookupA_eq_of_nodup hnd hmem'
          rw [hik] at hlr
          obtain rfl : r = r' := Option.some.inj hlr
          rw [hasField, ht'] at hnt
          exact Bool.noConfusion hnt
        rw [mergeFold_not_mem i _ p m k hm hknot, containsKey_false_lookupA hpk]

/-- C7 witness: the index/warning part applied to a two-record collection,
and the drop part applied to the counterexample merge. -/
theorem C7_witness :
    ((∀ fp k, lookupA [("a", "kt")] fp = some k →
      ∃ r t, (k, r) ∈ [("kt", [("title", Value.str "A")]), ("k", recC7)] ∧
        getField r "title" = some (Value.str t) ∧ fp = normalize t) ∧
     (∀ p ∈ [("kt", [("title", Value.str "A")]), ("k", recC7)],
       hasField p.2 "title" = false → p.1 ∈ ["k"])) ∧
    lookupA ([] : Collection) "k" = none := by
  constructor
  · exact C7_index_and_drop.1 [("kt", [("title", Value.str "A")]), ("k", recC7)]
      [("a", "kt")] ["k"] rfl
  · exact C7_index_and_drop.2 [] [("k", recC7)] [] "k" recC7 (by decide) rfl
      (by decide) rfl (by decide)

end CheckBib
